import Mathlib

/-!
Verification of the flashbang generation/validation pipeline.

Python strings are modelled as `List Char` (a Python `str` is a sequence of
code points).  Python's arbitrary-precision integers are `Int`/`Nat`, and the
float formulas of the truncation logic are modelled with exact rational
arithmetic (`ℚ`); `int(x)` on a non-negative value is `Int.toNat ⌊x⌋`.
Fallible paths (a raised exception) are modelled with `Option`/sum types.

Sources embedded here:
  * src/src/ollama/client.py       (`OllamaClient.generate_text` streaming loop,
                                    `estimate_tokens`)
  * src/src/flashcards/ollama_generator.py
                                   (`_check_and_truncate_for_context`,
                                    `generate_flashcards`, `_truncate_to_target`,
                                    token budget computation)
  * src/src/anki_formatter.py      (`AnkiFormatter.validate_tsv`)
-/

namespace Flashbang

/-! ### Python string primitives on `List Char` -/

/-- Python `s.split(sep)` for a one-character separator: always returns at
least one piece, empty pieces included (`''.split('\n') == ['']`). -/
def splitOnChar (sep : Char) : List Char → List (List Char)
  | [] => [[]]
  | c :: cs =>
    if c = sep then [] :: splitOnChar sep cs
    else
      match splitOnChar sep cs with
      | l :: ls => (c :: l) :: ls
      | [] => [[c]]

/-- `sep.join(pieces)` for a one-character separator. -/
def joinWith (sep : Char) : List (List Char) → List Char
  | [] => []
  | [l] => l
  | l :: l' :: ls => l ++ sep :: joinWith sep (l' :: ls)

/-- Python `text.split('\n')`. -/
def splitLines (s : List Char) : List (List Char) := splitOnChar '\n' s

/-- Python `'\n'.join(lines)`. -/
def joinLines (ls : List (List Char)) : List Char := joinWith '\n' ls

/-- Python `line.count('\t')`. -/
def tabCount (l : List Char) : Nat := l.count '\t'

/-- Python `s.startswith(p)`. -/
def listStartsWith : List Char → List Char → Bool
  | _, [] => true
  | [], _ :: _ => false
  | c :: cs, p :: ps => c == p && listStartsWith cs ps

/-- Python `needle in hay` (substring containment). -/
def containsSub : List Char → List Char → Bool
  | [], needle => needle.isEmpty
  | hay@(_ :: t), needle => listStartsWith hay needle || containsSub t needle

/-- Python `hay.rfind(needle)` (for non-empty needles), as an `Option`:
the largest start position of an occurrence, `none` when absent
(Python returns `-1`, used only in `>` comparisons against non-negative
quantities, so `none` is equivalent there). -/
def findLastSub (hay needle : List Char) : Option Nat :=
  ((List.range (hay.length + 1)).filter fun p => listStartsWith (hay.drop p) needle).getLast?

/-- The whitespace characters stripped by Python `str.strip()` (ASCII part,
the only ones relevant to this pipeline's data). -/
def pyWhite (c : Char) : Bool :=
  c == ' ' || c == '\t' || c == '\n' || c == '\r' || c == '\x0b' || c == '\x0c'

/-- Truthiness of Python `line.strip()`: some non-whitespace character. -/
def stripNonempty (l : List Char) : Bool := l.any fun c => !(pyWhite c)

/-- Python `not field.strip()`: the field is all whitespace. -/
def stripAllWhite (l : List Char) : Bool := l.all pyWhite

/-! ### Streaming loop and card counting
From `generate_flashcards` (ollama_generator.py, `should_stop`) and the
streaming branch of `OllamaClient.generate_text` (client.py). -/

/-- The card-line counting heuristic of `should_stop`: number of lines of the
accumulated text containing at least 2 tab characters. -/
def countCards (s : List Char) : Nat :=
  (splitLines s).countP fun l => decide (2 ≤ tabCount l)

/-- `should_stop` with `stop_threshold` already resolved: stop once the
running card count reaches the threshold. -/
def shouldStop (threshold : Nat) (fullText : List Char) : Bool :=
  decide (threshold ≤ countCards fullText)

/-- The streaming consumption loop of `generate_text` (client.py lines
196-225): each non-empty chunk is appended to the accumulator and the stop
condition is checked on the accumulated text; empty chunks are skipped
(`if chunk:`).  Returns the accumulated text and the index of the chunk at
which the stop condition fired, if any. -/
def streamLoop (stop : List Char → Bool) :
    List (List Char) → List Char → Nat → List Char × Option Nat
  | [], acc, _ => (acc, none)
  | c :: cs, acc, i =>
    if c.isEmpty then streamLoop stop cs acc (i + 1)
    else if stop (acc ++ c) then (acc ++ c, some i)
    else streamLoop stop cs (acc ++ c) (i + 1)

/-- Index of the chunk at which generation stops early, for the
`should_stop` predicate built by `generate_flashcards` with
`stop_threshold = effective_target + 2`. -/
def streamStopIndex (threshold : Nat) (chunks : List (List Char)) : Option Nat :=
  (streamLoop (shouldStop threshold) chunks [] 0).2

/-! ### Token estimation and content truncation
From `OllamaClient.estimate_tokens` (client.py lines 292-306) and
`_check_and_truncate_for_context` (ollama_generator.py lines 236-315);
the token budget inputs are resolved into the single `avail` parameter. -/

/-- `estimate_tokens`: `len(text) // 4`. -/
def estimateTokens (text : List Char) : Nat := text.length / 4

/-- The truncation notice appended by `_check_and_truncate_for_context`. -/
def truncNotice : List Char :=
  "\n\n[... content truncated due to context length limits ...]\n".toList

/-- The markdown section-boundary marker searched for by the truncation code. -/
def sectionMarker : List Char := "\n## ".toList

/-- `keep_ratio = max(0.5, (available_for_content / content_tokens) * 0.9)`. -/
def keepRatio (ct : Nat) (avail : Int) : ℚ :=
  max (1/2 : ℚ) ((avail : ℚ) / (ct : ℚ) * (9/10))

/-- `target_chars = int(len(content) * keep_ratio)` (non-negative, so `int`
truncation is the floor). -/
def targetChars (len ct : Nat) (avail : Int) : Nat :=
  (⌊(len : ℚ) * keepRatio ct avail⌋).toNat

/-- The section-boundary adjustment: `last_section = truncated.rfind('\n## ')`;
the boundary is adopted only when `last_section > target_chars * 0.7`. -/
def boundaryCut (tc : Nat) (truncated : List Char) : List Char :=
  match findLastSub truncated sectionMarker with
  | some p => if (tc : ℚ) * (7/10) < (p : ℚ) then truncated.take p else truncated
  | none => truncated

/-- The truncation core of `_check_and_truncate_for_context`: if the content
estimate fits the available budget it is returned unchanged; otherwise the
keep-ratio cut plus boundary adjustment is applied and the truncation notice
appended.  When `content_tokens = 0` (content shorter than 4 characters) and
the budget is negative, the Python code raises `ZeroDivisionError` at
`available_for_content / content_tokens`; that raised exception is `none`. -/
def checkAndTruncate (content : List Char) (avail : Int) : Option (List Char) :=
  if (estimateTokens content : Int) ≤ avail then some content
  else if estimateTokens content = 0 then none
  else
    some (boundaryCut (targetChars content.length (estimateTokens content) avail)
        (content.take (targetChars content.length (estimateTokens content) avail))
      ++ truncNotice)

/-! ### Output normalizer
From `_truncate_to_target` (ollama_generator.py lines 449-486). -/

/-- The header-terminating column-header line `Front\tBack\tTags`. -/
def fbtMarker : List Char := "Front\tBack\tTags".toList

/-- A candidate card line below the header block:
`line.strip() and line.count('\t') >= 2`. -/
def isCardLine (l : List Char) : Bool :=
  stripNonempty l && decide (2 ≤ tabCount l)

/-- The header/card collection pass of `_truncate_to_target`: lines are
headers while `in_headers` holds (it is cleared after a line starting with
`Front\tBack\tTags`); afterwards only candidate card lines are collected. -/
def collectLines : List (List Char) → Bool → List (List Char) × List (List Char)
  | [], _ => ([], [])
  | l :: ls, inHeaders =>
    if inHeaders then
      let rest := collectLines ls (!listStartsWith l fbtMarker)
      (l :: rest.1, rest.2)
    else
      let rest := collectLines ls false
      if isCardLine l then (rest.1, l :: rest.2) else rest

/-- `_truncate_to_target(content, target_cards)`: split into lines, collect
the header block and the candidate card lines, keep at most `target` cards,
rejoin with a trailing newline. -/
def truncateToTarget (content : List Char) (target : Nat) : List Char :=
  joinLines ((collectLines (splitLines content) true).1
    ++ (collectLines (splitLines content) true).2.take target) ++ ['\n']

/-- Declarative description of the header split (used to state what
`collectLines` computes): everything up to and including the first line that
starts with `Front\tBack\tTags` is the header block; if no such line exists
the whole document is the header block. -/
def splitHeaders : List (List Char) → List (List Char) × List (List Char)
  | [] => ([], [])
  | l :: ls =>
    if listStartsWith l fbtMarker then ([l], ls)
    else ((l :: (splitHeaders ls).1), (splitHeaders ls).2)

/-- The four canonical header lines of a deck document. -/
def canonHeaderLines : List (List Char) :=
  ["#separator:tab".toList, "#html:true".toList, "#tags column:3".toList,
   "Front\tBack\tTags".toList]

/-- A distinct, well-formed card line (two tabs, three non-empty fields). -/
def mkCardLine (i : Nat) : List Char :=
  'Q' :: Nat.toDigits 10 i ++ '\t' :: 'A' :: '\t' :: ['t']

/-- 65 distinct well-formed card lines, for the C5 scenario. -/
def scenarioCardLines : List (List Char) := (List.range 65).map mkCardLine

/-- Raw streamed text consisting of the 4 canonical header lines plus 65
well-formed card lines. -/
def scenarioDoc : List Char := joinLines (canonHeaderLines ++ scenarioCardLines)

/-! ### Interruption handling of `generate_flashcards`
From ollama_generator.py lines 409-447.  The outcome of the provider call is
either a returned `Optional[str]` or a raised `KeyboardInterrupt`
(`Except.error ()`); `accumulated` is the list of chunks the
`counting_callback` had appended before the call ended. -/

inductive GenOutcome
  | ok (doc : List Char)
  | errInterrupted
  | errRuntime
deriving DecidableEq

/-- Post-call control flow of `generate_flashcards`: on `KeyboardInterrupt`,
re-raise when nothing accumulated, else adopt the joined accumulated text;
then `if not flashcard_content: raise RuntimeError`; finally normalize via
`_truncate_to_target` and persist (the `ok` payload is what is written). -/
def generateAfterCall (callResult : Except Unit (Option (List Char)))
    (accumulated : List (List Char)) (target : Nat) : GenOutcome :=
  match callResult with
  | .error _ =>
    if accumulated.isEmpty then .errInterrupted
    else
      if accumulated.flatten.isEmpty then .errRuntime
      else .ok (truncateToTarget accumulated.flatten target)
  | .ok none => .errRuntime
  | .ok (some content) =>
    if content.isEmpty then .errRuntime
    else .ok (truncateToTarget content target)

/-! ### TSV validation
From `AnkiFormatter.validate_tsv` (anki_formatter.py lines 142-212).  Each
constructor stands for one of the f-string error messages, carrying the
interpolated values. -/

inductive VErr
  | missingSeparator
  | missingHtml
  | missingTagsCol
  | missingColumnHeaders
  | wrongColumns (line cols : Nat)
  | emptyFront (line : Nat)
  | emptyBack (line : Nat)
  | emptyTags (line : Nat)
  | noCards
deriving DecidableEq

/-- A line skipped by the row loop:
`line.startswith('#') or line == 'Front\tBack\tTags' or not line.strip()`. -/
def skipRow (l : List Char) : Bool :=
  listStartsWith l ['#'] || decide (l = fbtMarker) || !stripNonempty l

/-- Errors contributed by one row (with its 1-based line number) and whether
it counts as a card row. -/
def rowErrors (i : Nat) (l : List Char) : List VErr × Nat :=
  if skipRow l then ([], 0)
  else
    match splitOnChar '\t' l with
    | [f, b, tg] =>
      ((if stripAllWhite f then [.emptyFront i] else [])
        ++ (if stripAllWhite b then [.emptyBack i] else [])
        ++ (if stripAllWhite tg then [.emptyTags i] else []), 1)
    | parts => ([.wrongColumns i parts.length], 0)

/-- The row loop of `validate_tsv` (`enumerate(lines, 1)`): collected errors
in line order, plus the number of card rows. -/
def checkRows : Nat → List (List Char) → List VErr × Nat
  | _, [] => ([], 0)
  | i, l :: ls =>
    ((rowErrors i l).1 ++ (checkRows (i + 1) ls).1,
     (rowErrors i l).2 + (checkRows (i + 1) ls).2)

/-- The four header checks of `validate_tsv`, in source order. -/
def headerChecks (content : List Char) : List VErr :=
  (if listStartsWith content "#separator:tab".toList then [] else [VErr.missingSeparator])
  ++ (if containsSub content "#html:true".toList then [] else [VErr.missingHtml])
  ++ (if containsSub content "#tags column:3".toList then [] else [VErr.missingTagsCol])
  ++ (if (splitLines content).any (fun l => decide (l = fbtMarker)) then []
      else [VErr.missingColumnHeaders])

/-- The full error list collected by `validate_tsv`: header errors, then the
per-row errors in line order, then the zero-card error when no card row was
seen. -/
def validationErrors (content : List Char) : List VErr :=
  headerChecks content ++ (checkRows 1 (splitLines content)).1
  ++ (if (checkRows 1 (splitLines content)).2 = 0 then [VErr.noCards] else [])

/-- `validate_tsv(content)`: returns `(is_valid, errors)` with
`is_valid = (len(errors) == 0)`. -/
def validateTsv (content : List Char) : Bool × List VErr :=
  ((validationErrors content).isEmpty, validationErrors content)

/-- The document consisting of exactly the 4 canonical header lines. -/
def canonicalHeaderDoc : List Char := joinLines canonHeaderLines

/-- 1-based line number an error refers to, when it is a per-row error. -/
def errLine : VErr → Option Nat
  | .wrongColumns n _ => some n
  | .emptyFront n => some n
  | .emptyBack n => some n
  | .emptyTags n => some n
  | _ => none

/-- Is this error a column-count error for line `n`? -/
def isWrongColsAt (n : Nat) : VErr → Bool
  | .wrongColumns m _ => m == n
  | _ => false

/-! ### Token budget
From `_check_and_truncate_for_context` (lines 256-272) and
`get_context_usage_report` (lines 558-567); the prompt overhead is the
`overheadTokens` parameter (the source fixes it to 2000 at both sites). -/

/-- `output_tokens = int(target_cards * 100 * 1.2)` (non-negative, so `int`
truncation is the floor). -/
def outputReserve (targetCards : Nat) : Nat :=
  (⌊(targetCards : ℚ) * 100 * (12/10)⌋).toNat

/-- `image_tokens = len(images) * 50`. -/
def imageReserve (imageCount : Nat) : Nat := imageCount * 50

/-- `available_for_content = context_length - prompt_overhead - image_tokens
- output_tokens` (a Python int; may be negative). -/
def availableForContent (contextLength overheadTokens : Int)
    (imageCount targetCards : Nat) : Int :=
  contextLength - overheadTokens - (imageReserve imageCount : Int)
    - (outputReserve targetCards : Int)

/-! ## String primitive lemmas -/

theorem splitOnChar_exists_cons (sep : Char) (s : List Char) :
    ∃ l ls, splitOnChar sep s = l :: ls := by
  cases s with
  | nil => refine ⟨[], [], ?_⟩; rfl
  | cons c cs =>
    rw [splitOnChar]
    by_cases h : c = sep
    · rw [if_pos h]; exact ⟨[], _, rfl⟩
    · rw [if_neg h]
      cases hs : splitOnChar sep cs with
      | nil => exact ⟨[c], [], rfl⟩
      | cons l ls => exact ⟨c :: l, ls, rfl⟩

theorem splitOnChar_ne_nil (sep : Char) (s : List Char) : splitOnChar sep s ≠ [] := by
  obtain ⟨l, ls, hs⟩ := splitOnChar_exists_cons sep s
  simp [hs]

theorem joinWith_cons (sep c : Char) (l : List Char) (ls : List (List Char)) :
    joinWith sep ((c :: l) :: ls) = c :: joinWith sep (l :: ls) := by
  cases ls <;> rfl

theorem joinWith_splitOnChar (sep : Char) (s : List Char) :
    joinWith sep (splitOnChar sep s) = s := by
  induction s with
  | nil => rfl
  | cons c cs ih =>
    rw [splitOnChar]
    obtain ⟨l, ls, hs⟩ := splitOnChar_exists_cons sep cs
    by_cases h : c = sep
    · rw [if_pos h, hs]
      show ([] : List Char) ++ sep :: joinWith sep (l :: ls) = c :: cs
      rw [List.nil_append, ← hs, ih, h]
    · rw [if_neg h, hs]
      show joinWith sep ((c :: l) :: ls) = c :: cs
      rw [joinWith_cons, ← hs, ih]

theorem splitOnChar_append_sep (sep : Char) (s : List Char) :
    splitOnChar sep (s ++ [sep]) = splitOnChar sep s ++ [[]] := by
  induction s with
  | nil =>
    show splitOnChar sep [sep] = [[]] ++ [[]]
    rw [splitOnChar, if_pos rfl]
    rfl
  | cons c cs ih =>
    rw [List.cons_append, splitOnChar, splitOnChar]
    by_cases h : c = sep
    · rw [if_pos h, if_pos h, ih]
      rfl
    · rw [if_neg h, if_neg h, ih]
      obtain ⟨l, ls, hs⟩ := splitOnChar_exists_cons sep cs
      rw [hs, List.cons_append]
      rfl

theorem not_mem_splitOnChar (sep : Char) (s : List Char) :
    ∀ l ∈ splitOnChar sep s, sep ∉ l := by
  induction s with
  | nil =>
    intro l hl
    rw [show splitOnChar sep [] = [[]] from rfl] at hl
    simp only [List.mem_singleton] at hl
    simp [hl]
  | cons c cs ih =>
    intro l hl
    rw [splitOnChar] at hl
    by_cases h : c = sep
    · rw [if_pos h] at hl
      rcases List.mem_cons.mp hl with rfl | hl'
      · simp
      · exact ih l hl'
    · rw [if_neg h] at hl
      obtain ⟨l0, ls, hs⟩ := splitOnChar_exists_cons sep cs
      rw [hs] at hl
      rcases List.mem_cons.mp hl with rfl | hl'
      · intro hmem
        rcases List.mem_cons.mp hmem with heq | hmem'
        · exact h heq.symm
        · exact ih l0 (hs ▸ List.mem_cons_self l0 ls) hmem'
      · exact ih l (hs ▸ List.mem_cons_of_mem l0 hl')

theorem splitOnChar_single (sep : Char) (l : List Char) (h : sep ∉ l) :
    splitOnChar sep l = [l] := by
  induction l with
  | nil => rfl
  | cons c cs ih =>
    have hc : ¬(c = sep) := fun he => h (he ▸ List.mem_cons_self c cs)
    have hcs : sep ∉ cs := fun hm => h (List.mem_cons_of_mem c hm)
    rw [splitOnChar, if_neg hc, ih hcs]

theorem splitOnChar_append_cons (sep : Char) (l rest : List Char) (h : sep ∉ l) :
    splitOnChar sep (l ++ sep :: rest) = l :: splitOnChar sep rest := by
  induction l with
  | nil =>
    rw [List.nil_append, splitOnChar, if_pos rfl]
  | cons c cs ih =>
    have hc : ¬(c = sep) := fun he => h (he ▸ List.mem_cons_self c cs)
    have hcs : sep ∉ cs := fun hm => h (List.mem_cons_of_mem c hm)
    rw [List.cons_append, splitOnChar, if_neg hc, ih hcs]

theorem splitOnChar_joinWith (sep : Char) (ls : List (List Char))
    (hne : ls ≠ []) (h : ∀ l ∈ ls, sep ∉ l) :
    splitOnChar sep (joinWith sep ls) = ls := by
  induction ls with
  | nil => exact absurd rfl hne
  | cons l ls ih =>
    cases ls with
    | nil =>
      show splitOnChar sep l = [l]
      exact splitOnChar_single sep l (h l (List.mem_cons_self l []))
    | cons l' ls' =>
      show splitOnChar sep (l ++ sep :: joinWith sep (l' :: ls')) = l :: l' :: ls'
      rw [splitOnChar_append_cons sep l _ (h l (List.mem_cons_self l _))]
      rw [ih (by simp) (fun x hx => h x (List.mem_cons_of_mem l hx))]

/-! ## C1: streaming early stop -/

theorem streamLoop_spec (stop : List Char → Bool) :
    ∀ (cs : List (List Char)) (acc : List Char) (b i : Nat),
      stop acc = false →
      ((streamLoop stop cs acc b).2 = some i ↔
        ∃ k, i = b + k
          ∧ stop (acc ++ (cs.take (k + 1)).flatten) = true
          ∧ ∀ j, j ≤ k → stop (acc ++ (cs.take j).flatten) = false) := by
  intro cs
  induction cs with
  | nil =>
    intro acc b i h
    constructor
    · intro hc; exact absurd hc (by simp [streamLoop])
    · rintro ⟨k, _, htrue, _⟩
      simp only [List.take_nil, List.flatten_nil, List.append_nil] at htrue
      rw [h] at htrue
      exact absurd htrue (by simp)
  | cons c cs ih =>
    intro acc b i h
    rw [streamLoop]
    by_cases hce : c.isEmpty
    · have hc : c = [] := by simpa using hce
      rw [if_pos hce, ih acc (b + 1) i h]
      subst hc
      constructor
      · rintro ⟨k, rfl, htrue, hfalse⟩
        refine ⟨k + 1, by omega, by simpa using htrue, ?_⟩
        intro j hj
        cases j with
        | zero => simpa using h
        | succ j' => simpa using hfalse j' (by omega)
      · rintro ⟨k, hik, htrue, hfalse⟩
        cases k with
        | zero =>
          exfalso
          simp only [List.take_succ_cons, List.take_zero, List.flatten_cons,
            List.flatten_nil, List.nil_append, List.append_nil] at htrue
          rw [h] at htrue
          exact absurd htrue (by simp)
        | succ k' =>
          refine ⟨k', by omega, by simpa using htrue, ?_⟩
          intro j hj
          simpa using hfalse (j + 1) (by omega)
    · rw [if_neg hce]
      by_cases hstop : stop (acc ++ c) = true
      · rw [if_pos hstop]
        show some b = some i ↔ _
        constructor
        · intro hbi
          refine ⟨0, by simpa using (Option.some.inj hbi).symm, by simpa using hstop, ?_⟩
          intro j hj
          rw [Nat.le_zero.mp hj]
          simpa using h
        · rintro ⟨k, hik, htrue, hfalse⟩
          cases k with
          | zero => simp [hik]
          | succ k' =>
            exfalso
            have h1 := hfalse 1 (by omega)
            simp only [List.take_succ_cons, List.take_zero, List.flatten_cons,
              List.flatten_nil, List.append_nil] at h1
            rw [h1] at hstop
            exact absurd hstop (by simp)
      · have hstop' : stop (acc ++ c) = false := by
          cases hv : stop (acc ++ c) with
          | false => rfl
          | true => exact absurd hv hstop
        rw [if_neg hstop, ih (acc ++ c) (b + 1) i hstop']
        constructor
        · rintro ⟨k, rfl, htrue, hfalse⟩
          refine ⟨k + 1, by omega, by simpa [List.append_assoc] using htrue, ?_⟩
          intro j hj
          cases j with
          | zero => simpa using h
          | succ j' =>
            simpa [List.append_assoc] using hfalse j' (by omega)
        · rintro ⟨k, hik, htrue, hfalse⟩
          cases k with
          | zero =>
            exfalso
            simp only [List.take_succ_cons, List.take_zero, List.flatten_cons,
              List.flatten_nil, List.append_nil] at htrue
            rw [htrue] at hstop'
            exact absurd hstop' (by simp)
          | succ k' =>
            refine ⟨k', by omega, by simpa [List.append_assoc] using htrue, ?_⟩
            intro j hj
            simpa [List.append_assoc] using hfalse (j + 1) (by omega)

theorem countCards_nil : countCards [] = 0 := rfl

/-- C1: during streaming generation with threshold `target_cards + 2`, the
stop condition fires exactly after the first chunk at which the accumulated
text contains at least `target_cards + 2` lines with at least 2 tab
characters, and it does not fire at any prefix with fewer qualifying lines;
whenever the accumulated text eventually reaches the threshold, the stop
fires. -/
theorem claim_c1 (chunks : List (List Char)) (target : Nat) :
    (∀ i, streamStopIndex (target + 2) chunks = some i ↔
        (target + 2 ≤ countCards ((chunks.take (i + 1)).flatten)
          ∧ ∀ j, j ≤ i → countCards ((chunks.take j).flatten) < target + 2))
    ∧ ((∃ n, target + 2 ≤ countCards ((chunks.take n).flatten)) →
        ∃ i, streamStopIndex (target + 2) chunks = some i) := by
  have h0 : shouldStop (target + 2) [] = false := by
    simp [shouldStop, countCards_nil]
  have hiff : ∀ i, streamStopIndex (target + 2) chunks = some i ↔
      (target + 2 ≤ countCards ((chunks.take (i + 1)).flatten)
        ∧ ∀ j, j ≤ i → countCards ((chunks.take j).flatten) < target + 2) := by
    intro i
    rw [streamStopIndex, streamLoop_spec (shouldStop (target + 2)) chunks [] 0 i h0]
    constructor
    · rintro ⟨k, rfl, htrue, hfalse⟩
      simp only [List.nil_append, Nat.zero_add] at *
      refine ⟨by simpa [shouldStop] using htrue, ?_⟩
      intro j hj
      have := hfalse j hj
      simp only [shouldStop, decide_eq_false_iff_not, not_le] at this
      exact this
    · rintro ⟨htrue, hfalse⟩
      refine ⟨i, by omega, ?_, ?_⟩
      · simpa [shouldStop] using htrue
      · intro j hj
        simp only [List.nil_append, shouldStop, decide_eq_false_iff_not, not_le]
        exact hfalse j hj
  refine ⟨hiff, ?_⟩
  rintro ⟨n, hn⟩
  have hP : ∃ m, target + 2 ≤ countCards ((chunks.take m).flatten) := ⟨n, hn⟩
  have hm := Nat.find_spec hP
  have hm0 : Nat.find hP ≠ 0 := by
    intro h0'
    rw [h0'] at hm
    simp only [List.take_zero, List.flatten_nil, countCards_nil] at hm
    omega
  refine ⟨Nat.find hP - 1, (hiff (Nat.find hP - 1)).mpr ⟨?_, ?_⟩⟩
  · have : Nat.find hP - 1 + 1 = Nat.find hP := by omega
    rw [this]
    exact hm
  · intro j hj
    have hlt := Nat.find_min hP (show j < Nat.find hP by omega)
    omega

/-- C1 witness: a concrete two-chunk stream crossing threshold `0 + 2` at the
second chunk stops early. -/
theorem claim_c1_witness :
    ∃ i, streamStopIndex (0 + 2) ["a\tb\tc\n".toList, "d\te\tf".toList] = some i :=
  (claim_c1 ["a\tb\tc\n".toList, "d\te\tf".toList] 0).2 ⟨2, by decide⟩

/-! ## Normalizer lemmas (C5, C6, C10) -/

theorem collectLines_false (ls : List (List Char)) :
    collectLines ls false = ([], ls.filter isCardLine) := by
  induction ls with
  | nil => rfl
  | cons l ls ih =>
    show (if isCardLine l then ((collectLines ls false).1, l :: (collectLines ls false).2)
          else collectLines ls false) = _
    rw [ih, List.filter_cons]
    by_cases h : isCardLine l
    · simp [h]
    · simp [h]

theorem collectLines_true (ls : List (List Char)) :
    collectLines ls true = ((splitHeaders ls).1, (splitHeaders ls).2.filter isCardLine) := by
  induction ls with
  | nil => rfl
  | cons l ls ih =>
    show (l :: (collectLines ls (!listStartsWith l fbtMarker)).1,
          (collectLines ls (!listStartsWith l fbtMarker)).2) = _
    rw [splitHeaders]
    cases hm : listStartsWith l fbtMarker with
    | true =>
      rw [if_pos rfl]
      show (l :: (collectLines ls false).1, (collectLines ls false).2) = _
      rw [collectLines_false]
    | false =>
      rw [if_neg (by simp)]
      show (l :: (collectLines ls true).1, (collectLines ls true).2) = _
      rw [ih]

theorem truncateToTarget_eq (doc : List Char) (N : Nat) :
    truncateToTarget doc N
      = joinLines ((splitHeaders (splitLines doc)).1
          ++ ((splitHeaders (splitLines doc)).2.filter isCardLine).take N) ++ ['\n'] := by
  rw [truncateToTarget, collectLines_true]

theorem joinLines_splitLines (s : List Char) : joinLines (splitLines s) = s :=
  joinWith_splitOnChar '\n' s

theorem splitHeaders_no_marker (ls : List (List Char))
    (h : ∀ l ∈ ls, listStartsWith l fbtMarker = false) : splitHeaders ls = (ls, []) := by
  induction ls with
  | nil => rfl
  | cons l ls ih =>
    rw [splitHeaders, if_neg (by rw [h l (List.mem_cons_self l ls)]; simp),
      ih fun x hx => h x (List.mem_cons_of_mem l hx)]

theorem splitHeaders_marker (pre : List (List Char)) (m : List Char)
    (rest : List (List Char)) (hpre : ∀ l ∈ pre, listStartsWith l fbtMarker = false)
    (hm : listStartsWith m fbtMarker = true) :
    splitHeaders (pre ++ m :: rest) = (pre ++ [m], rest) := by
  induction pre with
  | nil =>
    rw [List.nil_append, splitHeaders, if_pos hm, List.nil_append]
  | cons p pre ih =>
    rw [List.cons_append, splitHeaders,
      if_neg (by rw [hpre p (List.mem_cons_self p pre)]; simp),
      ih fun x hx => hpre x (List.mem_cons_of_mem p hx)]
    rfl

theorem exists_first_split {α : Type} (P : α → Bool) (ls : List α)
    (h : ∃ l ∈ ls, P l = true) :
    ∃ pre m rest, ls = pre ++ m :: rest ∧ P m = true ∧ ∀ l ∈ pre, P l = false := by
  induction ls with
  | nil =>
    obtain ⟨l, hl, _⟩ := h
    exact absurd hl (List.not_mem_nil l)
  | cons a ls ih =>
    obtain ⟨l, hl, hP⟩ := h
    by_cases ha : P a = true
    · exact ⟨[], a, ls, rfl, ha, by simp⟩
    · have ha' : P a = false := by
        cases hv : P a with
        | true => exact absurd hv ha
        | false => rfl
      rcases List.mem_cons.mp hl with rfl | hl'
      · exact absurd hP ha
      · obtain ⟨pre, m, rest, heq, hm, hpre⟩ := ih ⟨l, hl', hP⟩
        refine ⟨a :: pre, m, rest, by rw [heq]; rfl, hm, ?_⟩
        intro x hx
        rcases List.mem_cons.mp hx with rfl | hx'
        · exact ha'
        · exact hpre x hx'

set_option maxRecDepth 8000 in
/-- C5: for every raw document and target, `_truncate_to_target` preserves
the header block (all lines up to and including the first line starting with
`Front\tBack\tTags`) verbatim and in order, keeps at most `N` candidate card
lines (the first `N`, in original order), and on the concrete scenario of the
4 canonical header lines plus 65 well-formed card lines with target 60 yields
the header plus the first 60 card lines. -/
theorem claim_c5 :
    (∀ (doc : List Char) (N : Nat),
        truncateToTarget doc N
          = joinLines ((splitHeaders (splitLines doc)).1
              ++ ((splitHeaders (splitLines doc)).2.filter isCardLine).take N) ++ ['\n']
        ∧ (((splitHeaders (splitLines doc)).2.filter isCardLine).take N).length ≤ N)
    ∧ truncateToTarget scenarioDoc 60
        = joinLines (canonHeaderLines ++ scenarioCardLines.take 60) ++ ['\n'] := by
  refine ⟨fun doc N => ⟨truncateToTarget_eq doc N, ?_⟩, by decide⟩
  rw [List.length_take]
  exact min_le_left _ _

/-- C10: when no line of the input starts with `Front\tBack\tTags`, the
normalizer classifies every line as a header line and returns the whole input
unchanged with a single trailing newline appended; in particular no capping
occurs, so the result can contain more than `target_cards` lines with at
least 2 tab characters. -/
theorem claim_c10 :
    (∀ (doc : List Char) (N : Nat),
        (∀ l ∈ splitLines doc, listStartsWith l fbtMarker = false) →
        truncateToTarget doc N = doc ++ ['\n'])
    ∧ ((∀ l ∈ splitLines ("a\tb\tc".toList), listStartsWith l fbtMarker = false)
        ∧ 0 < countCards (truncateToTarget ("a\tb\tc".toList) 0)) := by
  constructor
  · intro doc N h
    rw [truncateToTarget_eq, splitHeaders_no_marker _ h]
    show joinLines (splitLines doc ++ List.take N (List.filter isCardLine [])) ++ ['\n']
        = doc ++ ['\n']
    rw [List.filter_nil, List.take_nil, List.append_nil, joinLines_splitLines]
  · exact ⟨by decide, by decide⟩

/-- C10 witness: a concrete marker-free document passes through unchanged
except for the appended newline. -/
theorem claim_c10_witness :
    truncateToTarget ("q".toList) 3 = "q".toList ++ ['\n'] :=
  claim_c10.1 ("q".toList) 3 (by decide)

/-- C6 counterexample: on a document with no `Front\tBack\tTags` line the
normalizer is not idempotent — each application appends one more newline. -/
theorem claim_c6_counterexample :
    truncateToTarget (truncateToTarget ("x".toList) 0) 0 ≠ truncateToTarget ("x".toList) 0 := by
  decide

/-- C6 (amended): `normalize` is idempotent for every raw document that
contains a line starting with `Front\tBack\tTags` (the header terminator);
for documents without such a line each application appends one newline. -/
theorem claim_c6 (doc : List Char) (N : Nat)
    (h : ∃ l ∈ splitLines doc, listStartsWith l fbtMarker = true) :
    truncateToTarget (truncateToTarget doc N) N = truncateToTarget doc N := by
  obtain ⟨pre, m, rest, heq, hm, hpre⟩ :=
    exists_first_split (fun l => listStartsWith l fbtMarker) (splitLines doc) h
  set C := (rest.filter isCardLine).take N with hC
  have h1 : truncateToTarget doc N = joinLines ((pre ++ [m]) ++ C) ++ ['\n'] := by
    rw [truncateToTarget_eq, heq, splitHeaders_marker pre m rest hpre hm]
  have hnl : ∀ l ∈ (pre ++ [m]) ++ C, ('\n') ∉ l := by
    intro l hl
    apply not_mem_splitOnChar '\n' doc l
    show l ∈ splitOnChar '\n' doc
    rw [show splitOnChar '\n' doc = splitLines doc from rfl, heq]
    rcases List.mem_append.mp hl with h1' | h2'
    · rcases List.mem_append.mp h1' with hp | hm'
      · exact List.mem_append.mpr (Or.inl hp)
      · rw [List.mem_singleton.mp hm']
        exact List.mem_append.mpr (Or.inr (List.mem_cons_self _ _))
    · have hr : l ∈ rest := List.mem_of_mem_filter (List.mem_of_mem_take h2')
      exact List.mem_append.mpr (Or.inr (List.mem_cons_of_mem _ hr))
  have hsplit2 : splitLines (truncateToTarget doc N) = ((pre ++ [m]) ++ C) ++ [[]] := by
    rw [h1]
    show splitOnChar '\n' (joinWith '\n' ((pre ++ [m]) ++ C) ++ ['\n']) = _
    rw [splitOnChar_append_sep, splitOnChar_joinWith '\n' _ (by simp) hnl]
  have hsh : splitHeaders (((pre ++ [m]) ++ C) ++ [[]]) = (pre ++ [m], C ++ [[]]) := by
    rw [show ((pre ++ [m]) ++ C) ++ [[]] = pre ++ m :: (C ++ [[]]) by simp,
      splitHeaders_marker pre m _ hpre hm]
  have hfilter : (C ++ [[]]).filter isCardLine = C := by
    rw [List.filter_append, show List.filter isCardLine [([] : List Char)] = [] from rfl,
      List.append_nil]
    apply List.filter_eq_self.mpr
    intro a ha
    exact List.of_mem_filter (List.mem_of_mem_take ha)
  have htake : C.take N = C := by
    rw [hC, List.take_take]
    simp
  rw [truncateToTarget_eq (truncateToTarget doc N) N, hsplit2, hsh, hfilter, htake, ← h1]

/-- C6 witness: idempotence at a concrete header-bearing document. -/
theorem claim_c6_witness :
    truncateToTarget (truncateToTarget canonicalHeaderDoc 5) 5
      = truncateToTarget canonicalHeaderDoc 5 :=
  claim_c6 canonicalHeaderDoc 5 (by decide)

/-! ## Validator lemmas (C7, C8) -/

theorem rowErrors_errLine (i : Nat) (l : List Char) :
    ∀ e ∈ (rowErrors i l).1, errLine e = some i := by
  intro e he
  rw [rowErrors] at he
  split at he
  · exact absurd he (List.not_mem_nil e)
  · split at he
    · simp only [List.mem_append] at he
      rcases he with (he | he) | he <;>
        (split at he <;>
          first
            | exact absurd he (List.not_mem_nil e)
            | (rw [List.mem_singleton.mp he]; rfl))
    · rw [List.mem_singleton.mp he]
      rfl

theorem rowErrors_bad (i : Nat) (l : List Char) (hs : skipRow l = false)
    (hc : (splitOnChar '\t' l).length ≠ 3) :
    (rowErrors i l).1 = [VErr.wrongColumns i (splitOnChar '\t' l).length] := by
  rw [rowErrors, if_neg (by simp [hs])]
  rcases hp : splitOnChar '\t' l with _ | ⟨f, _ | ⟨b, _ | ⟨tg, _ | ⟨x, xs⟩⟩⟩⟩ <;>
    first
      | rfl
      | (exfalso; rw [hp] at hc; exact hc rfl)

theorem checkRows_cons (i : Nat) (l : List Char) (ls : List (List Char)) :
    (checkRows i (l :: ls)).1 = (rowErrors i l).1 ++ (checkRows (i + 1) ls).1 := rfl

theorem checkRows_append (p q : List (List Char)) :
    ∀ i, (checkRows i (p ++ q)).1 = (checkRows i p).1 ++ (checkRows (i + p.length) q).1 := by
  induction p with
  | nil => intro i; simp [checkRows]
  | cons l p ih =>
    intro i
    rw [List.cons_append, checkRows_cons, checkRows_cons, ih (i + 1), List.append_assoc]
    have : i + 1 + p.length = i + (l :: p).length := by simp; omega
    rw [this]

theorem checkRows_errLine_bounds (ls : List (List Char)) :
    ∀ i, ∀ e ∈ (checkRows i ls).1, ∃ n, errLine e = some n ∧ i ≤ n ∧ n < i + ls.length := by
  induction ls with
  | nil => intro i e he; exact absurd he (List.not_mem_nil e)
  | cons l ls ih =>
    intro i e he
    rw [checkRows_cons] at he
    rcases List.mem_append.mp he with he' | he'
    · exact ⟨i, rowErrors_errLine i l e he', le_refl i, by simp⟩
    · obtain ⟨n, hn, h1, h2⟩ := ih (i + 1) e he'
      exact ⟨n, hn, by omega, by simp at h2 ⊢; omega⟩

theorem headerChecks_errLine (c : List Char) : ∀ e ∈ headerChecks c, errLine e = none := by
  intro e he
  rw [headerChecks] at he
  simp only [List.mem_append] at he
  rcases he with ((he | he) | he) | he <;>
    (split at he <;>
      first
        | exact absurd he (List.not_mem_nil e)
        | (rw [List.mem_singleton.mp he]; rfl))

theorem isWrongColsAt_errLine (n : Nat) (e : VErr) (h : isWrongColsAt n e = true) :
    errLine e = some n := by
  cases e <;> simp [isWrongColsAt] at h
  simp [errLine, h]

theorem list_decomp_at {α : Type} (ls : List α) (j : Nat) (a : α) (h : ls[j]? = some a) :
    ls = ls.take j ++ a :: ls.drop (j + 1) ∧ (ls.take j).length = j := by
  rw [List.getElem?_eq_some] at h
  obtain ⟨hlt, hget⟩ := h
  constructor
  · rw [← hget, ← List.drop_eq_getElem_cons hlt, List.take_append_drop]
  · rw [List.length_take]
    omega

theorem validationErrors_decomp (content : List Char) (j : Nat) (l' : List Char)
    (hget : (splitLines content)[j]? = some l') :
    validationErrors content
      = headerChecks content
        ++ ((checkRows 1 ((splitLines content).take j)).1
          ++ (rowErrors (1 + j) l').1
          ++ (checkRows (1 + j + 1) ((splitLines content).drop (j + 1))).1)
        ++ (if (checkRows 1 (splitLines content)).2 = 0 then [VErr.noCards] else []) := by
  obtain ⟨hdec, hlen⟩ := list_decomp_at (splitLines content) j l' hget
  rw [validationErrors]
  congr 2
  rw [show (checkRows 1 (splitLines content)).1
      = (checkRows 1 ((splitLines content).take j ++ l' :: (splitLines content).drop (j + 1))).1
    from by rw [← hdec]]
  rw [checkRows_append, hlen, checkRows_cons, List.append_assoc]

theorem zeroErr_errLine (P : Prop) [Decidable P] :
    ∀ e ∈ (if P then [VErr.noCards] else []), errLine e = none := by
  intro e he
  split at he
  · rw [List.mem_singleton.mp he]; rfl
  · exact absurd he (List.not_mem_nil e)

/-- C7: a row below the header whose tab-split column count is not 3 yields
exactly one column-count error for its line, makes the document invalid, and
does not stop the validator: every other row's errors are still reported
exactly as that row's own check produces them. -/
theorem claim_c7 (content : List Char) (i : Nat) (l : List Char)
    (hget : (splitLines content)[i]? = some l)
    (hskip : skipRow l = false)
    (hcols : (splitOnChar '\t' l).length ≠ 3) :
    (validateTsv content).1 = false
    ∧ (validateTsv content).2.countP (isWrongColsAt (i + 1)) = 1
    ∧ ∀ (j : Nat) (l' : List Char), i < j → (splitLines content)[j]? = some l' →
        (validateTsv content).2.filter (fun e => decide (errLine e = some (j + 1)))
          = (rowErrors (j + 1) l').1 := by
  have hdecomp := validationErrors_decomp content i l hget
  have hbad : (rowErrors (1 + i) l).1
      = [VErr.wrongColumns (1 + i) (splitOnChar '\t' l).length] :=
    rowErrors_bad (1 + i) l hskip hcols
  refine ⟨?_, ?_, ?_⟩
  · -- invalid: the error list is non-empty
    show (validationErrors content).isEmpty = false
    cases hE : (validationErrors content).isEmpty with
    | false => rfl
    | true =>
      exfalso
      have hnil := List.isEmpty_iff.mp hE
      rw [hdecomp] at hnil
      have hmem : VErr.wrongColumns (1 + i) (splitOnChar '\t' l).length
          ∈ validationErrors content := by
        rw [hdecomp]
        refine List.mem_append.mpr (Or.inl (List.mem_append.mpr (Or.inr ?_)))
        refine List.mem_append.mpr (Or.inl (List.mem_append.mpr (Or.inr ?_)))
        rw [hbad]
        exact List.mem_singleton.mpr rfl
      rw [hdecomp] at hmem
      rw [hnil] at hmem
      exact absurd hmem (List.not_mem_nil _)
  · -- exactly one column-count error for line i+1
    show (validationErrors content).countP (isWrongColsAt (i + 1)) = 1
    rw [hdecomp]
    rw [List.countP_append, List.countP_append, List.countP_append, List.countP_append]
    have h0 : (headerChecks content).countP (isWrongColsAt (i + 1)) = 0 := by
      refine List.countP_eq_zero.mpr fun e he hw => ?_
      have h1 := isWrongColsAt_errLine (i + 1) e hw
      rw [headerChecks_errLine content e he] at h1
      exact Option.noConfusion h1
    have hA : ((checkRows 1 ((splitLines content).take i)).1).countP
        (isWrongColsAt (i + 1)) = 0 := by
      refine List.countP_eq_zero.mpr fun e he hw => ?_
      obtain ⟨n, hn, h1, h2⟩ := checkRows_errLine_bounds _ 1 e he
      have hn' := isWrongColsAt_errLine (i + 1) e hw
      rw [hn] at hn'
      have : n = i + 1 := Option.some.inj hn'
      rw [List.length_take] at h2
      omega
    have hB : ((rowErrors (1 + i) l).1).countP (isWrongColsAt (i + 1)) = 1 := by
      rw [hbad, List.countP_cons, List.countP_nil]
      have : isWrongColsAt (i + 1) (VErr.wrongColumns (1 + i) (splitOnChar '\t' l).length)
          = true := by
        show ((1 + i) == (i + 1)) = true
        exact beq_iff_eq.mpr (by omega)
      rw [this]
      rfl
    have hC : ((checkRows (1 + i + 1) ((splitLines content).drop (i + 1))).1).countP
        (isWrongColsAt (i + 1)) = 0 := by
      refine List.countP_eq_zero.mpr fun e he hw => ?_
      obtain ⟨n, hn, h1, h2⟩ := checkRows_errLine_bounds _ (1 + i + 1) e he
      have hn' := isWrongColsAt_errLine (i + 1) e hw
      rw [hn] at hn'
      have : n = i + 1 := Option.some.inj hn'
      omega
    have hZ : ((if (checkRows 1 (splitLines content)).2 = 0 then [VErr.noCards]
        else [])).countP (isWrongColsAt (i + 1)) = 0 := by
      refine List.countP_eq_zero.mpr fun e he hw => ?_
      have hnone := zeroErr_errLine _ e he
      have h1 := isWrongColsAt_errLine (i + 1) e hw
      rw [hnone] at h1
      exact Option.noConfusion h1
    rw [h0, hA, hB, hC, hZ]
  · -- later rows are still checked and reported verbatim
    intro j l' hij hget'
    show (validationErrors content).filter _ = _
    rw [validationErrors_decomp content j l' hget']
    rw [List.filter_append, List.filter_append, List.filter_append, List.filter_append]
    have hline : ∀ (S : List VErr), (∀ e ∈ S, errLine e = none) →
        S.filter (fun e => decide (errLine e = some (j + 1))) = [] := by
      intro S hS
      rw [List.filter_eq_nil_iff]
      intro e he
      simp [hS e he]
    have hbnd : ∀ (base : Nat) (L : List (List Char)),
        (∀ n, base ≤ n → n < base + L.length → n ≠ j + 1) →
        ((checkRows base L).1).filter (fun e => decide (errLine e = some (j + 1))) = [] := by
      intro base L hN
      rw [List.filter_eq_nil_iff]
      intro e he
      obtain ⟨n, hn, h1, h2⟩ := checkRows_errLine_bounds L base e he
      simp only [hn, decide_eq_true_eq]
      intro hsome
      exact hN n h1 h2 (Option.some.inj hsome)
    rw [hline _ (headerChecks_errLine content)]
    rw [hline _ (zeroErr_errLine _)]
    rw [hbnd 1 _ (by
      intro n h1 h2
      rw [List.length_take] at h2
      have := min_le_left j (splitLines content).length
      omega)]
    rw [hbnd (1 + j + 1) _ (by intro n h1 h2; omega)]
    rw [List.filter_eq_self.mpr (fun e he => by
      simp [rowErrors_errLine (1 + j) l' e he, Nat.add_comm 1 j])]
    simp only [List.nil_append, List.append_nil]
    rw [Nat.add_comm 1 j]

/-- C7 witness: canonical headers, then a 4-column row on line 5, then a good
row: the document is invalid with exactly one column-count error for line 5. -/
theorem claim_c7_witness :
    (validateTsv (joinLines (canonHeaderLines
        ++ ["a\tb\tc\td".toList, "e\tf\tg".toList]))).1 = false
    ∧ (validateTsv (joinLines (canonHeaderLines
        ++ ["a\tb\tc\td".toList, "e\tf\tg".toList]))).2.countP (isWrongColsAt 5) = 1 := by
  have h := claim_c7 (joinLines (canonHeaderLines ++ ["a\tb\tc\td".toList, "e\tf\tg".toList]))
    4 ("a\tb\tc\td".toList) (by decide) (by decide) (by decide)
  exact ⟨h.1, h.2.1⟩

/-- C8: the document consisting of exactly the 4 canonical header lines
validates to `valid = false` with the zero-cards error as its only error (in
particular no header error). -/
theorem claim_c8 : validateTsv canonicalHeaderDoc = (false, [VErr.noCards]) := by
  decide

/-! ## C4: interruption handling -/

/-- C4: on an external interruption during streaming, `generate_flashcards`
re-raises the interruption when no chunk accumulated, and otherwise keeps the
accumulated partial output, normalizes it with `_truncate_to_target`, and
persists that normalized document. -/
theorem claim_c4 (acc : List (List Char)) (target : Nat) :
    generateAfterCall (Except.error ()) [] target = GenOutcome.errInterrupted
    ∧ (acc ≠ [] → (∀ c ∈ acc, c ≠ []) →
        generateAfterCall (Except.error ()) acc target
          = GenOutcome.ok (truncateToTarget acc.flatten target)) := by
  constructor
  · rfl
  · intro hne hcs
    show (if acc.isEmpty then GenOutcome.errInterrupted
      else if acc.flatten.isEmpty then GenOutcome.errRuntime
      else GenOutcome.ok (truncateToTarget acc.flatten target)) = _
    rw [if_neg (fun h => hne (List.isEmpty_iff.mp h)),
      if_neg (fun h => ?_)]
    obtain ⟨c, cs, rfl⟩ := List.exists_cons_of_ne_nil hne
    exact hcs c (List.mem_cons_self c cs)
      (List.flatten_eq_nil_iff.mp (List.isEmpty_iff.mp h) c (List.mem_cons_self c cs))

/-- C4 witness: one accumulated chunk is kept, normalized and returned. -/
theorem claim_c4_witness :
    generateAfterCall (Except.error ()) ["a\tb\tc".toList] 5
      = GenOutcome.ok (truncateToTarget (["a\tb\tc".toList] : List (List Char)).flatten 5) :=
  (claim_c4 ["a\tb\tc".toList] 5).2 (by decide) (by decide)

/-! ## C9: token budget -/

/-- C9: the budget terms satisfy
`output_reserve = ceil(target_cards * 100 * 1.2)`,
`image_reserve = image_count * 50`, and
`available_for_content = context_length - overhead - image_reserve -
output_reserve` (the source computes `int(target_cards * 100 * 1.2)`, whose
exact value `120 * target_cards` is an integer, so truncation and ceiling
coincide). -/
theorem claim_c9 (contextLength overheadTokens : Int) (imageCount targetCards : Nat) :
    (outputReserve targetCards : Int) = ⌈(targetCards : ℚ) * 100 * (12/10)⌉
    ∧ imageReserve imageCount = imageCount * 50
    ∧ availableForContent contextLength overheadTokens imageCount targetCards
        = contextLength - overheadTokens - (imageCount : Int) * 50
          - ⌈(targetCards : ℚ) * 100 * (12/10)⌉ := by
  have key : (targetCards : ℚ) * 100 * (12/10) = ((120 * targetCards : Nat) : ℚ) := by
    push_cast
    ring
  have hceil : ⌈(targetCards : ℚ) * 100 * (12/10)⌉ = (120 * targetCards : Nat) := by
    rw [key, Int.ceil_natCast]
  have hout : outputReserve targetCards = 120 * targetCards := by
    rw [outputReserve, key, Int.floor_natCast]
    rfl
  refine ⟨by rw [hout, hceil], rfl, ?_⟩
  rw [availableForContent, hout, hceil, imageReserve]
  push_cast
  ring

/-! ## C2, C3: content truncation -/

theorem targetChars_toNatFloor (len ct : Nat) (avail : Int) :
    targetChars len ct avail = ⌊(len : ℚ) * keepRatio ct avail⌋₊ := by
  rw [targetChars, Int.floor_toNat]

theorem targetChars_ge (len ct : Nat) (avail : Int) :
    len / 2 ≤ targetChars len ct avail := by
  rw [targetChars_toNatFloor]
  have h1 : ((len : ℚ)) * (1/2) ≤ (len : ℚ) * keepRatio ct avail :=
    mul_le_mul_of_nonneg_left (le_max_left _ _) (Nat.cast_nonneg len)
  have h2 : ⌊(len : ℚ) * (1/2)⌋₊ = len / 2 := by
    rw [mul_one_div, show (2:ℚ) = ((2:ℕ):ℚ) by norm_num, Nat.floor_div_nat,
      Nat.floor_natCast]
  calc len / 2 = ⌊(len : ℚ) * (1/2)⌋₊ := h2.symm
    _ ≤ ⌊(len : ℚ) * keepRatio ct avail⌋₊ := Nat.floor_le_floor h1

theorem keepRatio_le_one (ct : Nat) (avail : Int) (hav : avail < (ct : Int))
    (hct : 0 < ct) : keepRatio ct avail ≤ 1 := by
  rw [keepRatio]
  apply max_le (by norm_num)
  have hle1 : (avail : ℚ) / (ct : ℚ) ≤ 1 := by
    rw [div_le_one (by exact_mod_cast hct)]
    exact_mod_cast le_of_lt hav
  calc (avail : ℚ) / (ct : ℚ) * (9/10) ≤ 1 * (9/10) :=
      mul_le_mul_of_nonneg_right hle1 (by norm_num)
    _ ≤ 1 := by norm_num

theorem targetChars_le (len ct : Nat) (avail : Int) (hav : avail < (ct : Int))
    (hct : 0 < ct) : targetChars len ct avail ≤ len := by
  rw [targetChars_toNatFloor]
  have h1 : (len : ℚ) * keepRatio ct avail ≤ (len : ℚ) :=
    mul_le_of_le_one_right (Nat.cast_nonneg len) (keepRatio_le_one ct avail hav hct)
  calc ⌊(len : ℚ) * keepRatio ct avail⌋₊ ≤ ⌊((len : ℕ) : ℚ)⌋₊ := Nat.floor_le_floor h1
    _ = len := Nat.floor_natCast len

theorem boundary_lt_iff (tc p : Nat) :
    ((tc : ℚ) * (7/10) < (p : ℚ)) ↔ 7 * tc < 10 * p := by
  rw [show (tc : ℚ) * (7/10) = ((7 * tc : ℕ) : ℚ) / 10 by push_cast; ring,
    div_lt_iff₀ (by norm_num : (0:ℚ) < 10)]
  constructor
  · intro h
    have h' : ((7 * tc : ℕ) : ℚ) < ((10 * p : ℕ) : ℚ) := by push_cast at h ⊢; linarith
    exact_mod_cast h'
  · intro h
    have h' : ((7 * tc : ℕ) : ℚ) < ((10 * p : ℕ) : ℚ) := by exact_mod_cast h
    push_cast at h' ⊢
    linarith

theorem findLastSub_le (hay needle : List Char) (p : Nat)
    (h : findLastSub hay needle = some p) : p ≤ hay.length := by
  rw [findLastSub] at h
  have hmem := List.mem_of_mem_filter (List.mem_of_getLast?_eq_some h)
  have := List.mem_range.mp hmem
  omega

theorem boundaryCut_none (tc : Nat) (tr : List Char)
    (h : findLastSub tr sectionMarker = none) : boundaryCut tc tr = tr := by
  rw [boundaryCut, h]

theorem boundaryCut_adopt (tc : Nat) (tr : List Char) (p : Nat)
    (h : findLastSub tr sectionMarker = some p) (hlt : (tc : ℚ) * (7/10) < (p : ℚ)) :
    boundaryCut tc tr = tr.take p := by
  rw [boundaryCut, h]
  show (if (tc : ℚ) * (7/10) < (p : ℚ) then tr.take p else tr) = tr.take p
  rw [if_pos hlt]

theorem boundaryCut_keep (tc : Nat) (tr : List Char) (p : Nat)
    (h : findLastSub tr sectionMarker = some p) (hge : ¬((tc : ℚ) * (7/10) < (p : ℚ))) :
    boundaryCut tc tr = tr := by
  rw [boundaryCut, h]
  show (if (tc : ℚ) * (7/10) < (p : ℚ) then tr.take p else tr) = tr
  rw [if_neg hge]

/-- C2 counterexample: with a content of fewer than 4 characters (token
estimate 0) and a negative budget, the code raises `ZeroDivisionError`
at `available_for_content / content_tokens` instead of computing the claimed
`keep_ratio` cut; the claim's universal quantification over every content
string and every available-token value fails here. -/
theorem claim_c2_counterexample :
    checkAndTruncate ("abc".toList) (-1) = none
    ∧ ¬ ((estimateTokens ("abc".toList) : Int) ≤ -1) := by
  exact ⟨by decide, by decide⟩

/-- C2 (amended): for every content and budget, if the token estimate fits
the budget the content is returned unchanged; otherwise, provided the token
estimate is positive (when it is zero the code raises `ZeroDivisionError`),
the function cuts at `floor(len * keep_ratio)` characters with
`keep_ratio = max(0.5, (avail / estimate) * 0.9)`, adopting the nearest
preceding `\n## ` boundary only if that boundary retains at least 70% of the
computed cut, and keeping the raw character cut when the boundary would
retain less than 70% (or no boundary exists); the truncation notice is
appended. -/
theorem claim_c2 (content : List Char) (avail : Int) :
    ((estimateTokens content : Int) ≤ avail → checkAndTruncate content avail = some content)
    ∧ (avail < (estimateTokens content : Int) → 0 < estimateTokens content →
        ∃ k, checkAndTruncate content avail = some (content.take k ++ truncNotice)
          ∧ (k = targetChars content.length (estimateTokens content) avail
             ∨ (findLastSub
                  (content.take (targetChars content.length (estimateTokens content) avail))
                  sectionMarker = some k
                ∧ 7 * targetChars content.length (estimateTokens content) avail ≤ 10 * k))
          ∧ (∀ p, findLastSub
                (content.take (targetChars content.length (estimateTokens content) avail))
                sectionMarker = some p →
              10 * p < 7 * targetChars content.length (estimateTokens content) avail →
              k = targetChars content.length (estimateTokens content) avail)
          ∧ (findLastSub
                (content.take (targetChars content.length (estimateTokens content) avail))
                sectionMarker = none →
              k = targetChars content.length (estimateTokens content) avail)) := by
  constructor
  · intro h
    rw [checkAndTruncate, if_pos h]
  · intro h1 h2
    have hmain : checkAndTruncate content avail
        = some (boundaryCut (targetChars content.length (estimateTokens content) avail)
            (content.take (targetChars content.length (estimateTokens content) avail))
          ++ truncNotice) := by
      rw [checkAndTruncate, if_neg (not_le.mpr h1), if_neg (Nat.pos_iff_ne_zero.mp h2)]
    set tc := targetChars content.length (estimateTokens content) avail with htc
    cases hf : findLastSub (content.take tc) sectionMarker with
    | none =>
      refine ⟨tc, ?_, Or.inl rfl, fun p hp _ => Option.noConfusion hp, fun _ => rfl⟩
      rw [hmain, boundaryCut_none tc _ hf]
    | some p =>
      have hple : p ≤ tc := by
        have := findLastSub_le _ _ _ hf
        rw [List.length_take] at this
        omega
      by_cases hcmp : (tc : ℚ) * (7/10) < (p : ℚ)
      · have h7 : 7 * tc < 10 * p := (boundary_lt_iff tc p).mp hcmp
        refine ⟨p, ?_, Or.inr ⟨rfl, le_of_lt h7⟩, ?_, ?_⟩
        · rw [hmain, boundaryCut_adopt tc _ p hf hcmp, List.take_take,
            min_eq_left hple]
        · intro p' hp' hlt
          have hpp : p = p' := Option.some.inj hp'
          exact absurd hlt (by omega)
        · intro hnone
          exact Option.noConfusion hnone
      · refine ⟨tc, ?_, Or.inl rfl, fun p' hp' hlt => rfl, fun _ => rfl⟩
        rw [hmain, boundaryCut_keep tc _ p hf hcmp]

/-- C2 witness: a 40-character content with token estimate 10 and budget 4
is cut (keep ratio 0.5) and returned with the truncation notice; the fitting
case returns the content unchanged. -/
theorem claim_c2_witness :
    (∃ k, checkAndTruncate ("aaaaaaaaaaaaaaa\n## bcdefghijklmnopqrstuv".toList) 4
        = some (("aaaaaaaaaaaaaaa\n## bcdefghijklmnopqrstuv".toList).take k ++ truncNotice))
    ∧ checkAndTruncate ("aaaaaaaaaaaaaaa\n## bcdefghijklmnopqrstuv".toList) 100
        = some ("aaaaaaaaaaaaaaa\n## bcdefghijklmnopqrstuv".toList) := by
  constructor
  · obtain ⟨k, hk, -, -, -⟩ :=
      (claim_c2 ("aaaaaaaaaaaaaaa\n## bcdefghijklmnopqrstuv".toList) 4).2
        (by decide) (by decide)
    exact ⟨k, hk⟩
  · exact (claim_c2 ("aaaaaaaaaaaaaaa\n## bcdefghijklmnopqrstuv".toList) 100).1 (by decide)

/-- C3 counterexample: a content of 8 characters over budget is truncated to
4 characters plus the 59-character truncation notice, so the result is longer
than the original, contradicting the claimed upper bound. -/
theorem claim_c3_counterexample :
    ∃ out, checkAndTruncate ("ab\ncd\nef".toList) 1 = some out
      ∧ ("ab\ncd\nef".toList).length < out.length := by
  have h2 : estimateTokens ("ab\ncd\nef".toList) = 2 := by decide
  have hkr : keepRatio 2 1 = 1/2 := by
    rw [keepRatio]
    apply max_eq_left
    push_cast
    norm_num
  have htc : targetChars 8 2 1 = 4 := by
    have hc : ((8:ℕ):ℚ) * (1/2 : ℚ) = ((4:ℕ):ℚ) := by push_cast; norm_num
    rw [targetChars, hkr, hc, Int.floor_natCast]
    rfl
  have hlen : ("ab\ncd\nef".toList).length = 8 := by decide
  have hmain : checkAndTruncate ("ab\ncd\nef".toList) 1
      = some (("ab\ncd\nef".toList).take 4 ++ truncNotice) := by
    rw [checkAndTruncate, if_neg (by rw [h2]; decide), if_neg (by rw [h2]; decide),
      h2, hlen, htc, boundaryCut_none 4 _ (by decide)]
  exact ⟨("ab\ncd\nef".toList).take 4 ++ truncNotice, hmain, by decide⟩

/-- C3 (amended): whenever the truncation returns a result, that result is
never longer than the original content plus the 59-character truncation
notice, and never shorter than 70% of half the original length
(`7 * (len / 2) ≤ 10 * result length`); the claim's exact bounds fail
because the notice is appended (result can exceed the original) and because
an adopted section boundary may cut below half (down to 70% of the
keep-ratio cut). -/
theorem claim_c3 (content : List Char) (avail : Int) (out : List Char)
    (h : checkAndTruncate content avail = some out) :
    out.length ≤ content.length + truncNotice.length
    ∧ 7 * (content.length / 2) ≤ 10 * out.length := by
  rw [checkAndTruncate] at h
  by_cases h1 : (estimateTokens content : Int) ≤ avail
  · rw [if_pos h1] at h
    obtain rfl : content = out := Option.some.inj h
    have := Nat.div_le_self content.length 2
    omega
  · rw [if_neg h1] at h
    by_cases h2 : estimateTokens content = 0
    · rw [if_pos h2] at h
      exact Option.noConfusion h
    · rw [if_neg h2] at h
      have hout := (Option.some.inj h).symm
      set tc := targetChars content.length (estimateTokens content) avail with htcdef
      have hav : avail < (estimateTokens content : Int) := not_le.mp h1
      have htcle : tc ≤ content.length :=
        targetChars_le content.length (estimateTokens content) avail hav
          (Nat.pos_of_ne_zero h2)
      have htcge : content.length / 2 ≤ tc :=
        targetChars_ge content.length (estimateTokens content) avail
      have htklen : (content.take tc).length = tc := by
        rw [List.length_take]
        omega
      cases hf : findLastSub (content.take tc) sectionMarker with
      | none =>
        rw [boundaryCut_none tc _ hf] at hout
        subst hout
        rw [List.length_append, htklen]
        omega
      | some p =>
        have hple : p ≤ tc := by
          have := findLastSub_le _ _ _ hf
          omega
        by_cases hcmp : (tc : ℚ) * (7/10) < (p : ℚ)
        · rw [boundaryCut_adopt tc _ p hf hcmp] at hout
          have h7 : 7 * tc < 10 * p := (boundary_lt_iff tc p).mp hcmp
          subst hout
          rw [List.length_append, List.length_take, htklen]
          omega
        · rw [boundaryCut_keep tc _ p hf hcmp] at hout
          subst hout
          rw [List.length_append, htklen]
          omega

/-- C3 witness: the bounds at a concrete fitting input. -/
theorem claim_c3_witness :
    ("abcd".toList).length ≤ ("abcd".toList).length + truncNotice.length
    ∧ 7 * (("abcd".toList).length / 2) ≤ 10 * ("abcd".toList).length :=
  claim_c3 ("abcd".toList) 100 ("abcd".toList) (by decide)

end Flashbang
